import Mathlib

/-!
# UART simulator: circular byte buffer and 8N1 frame codec

A shallow embedding of `src/uart_sim.h` and `src/uart_sim.c`.

* `uint8_t` values are `Fin 256`.
* `size_t` fields are natural numbers; arithmetic that the C code performs on
  them is taken modulo `2 ^ 64` where it could wrap.
* A pointer argument is an `Option`: `none` is the null pointer and `some x`
  a pointer to an object whose current value is `x`.  A function that mutates
  through a pointer returns the new pointee.
* The functions that only print are modelled by the values they print.
-/

namespace UartSim

/-! ## Constants of `uart_sim.h` -/

/-- The constant `UART_DATA_BITS`. -/
def UART_DATA_BITS : Nat := 8

/-- The constant `UART_START_BIT`. -/
def UART_START_BIT : Nat := 0

/-- The constant `UART_STOP_BIT`. -/
def UART_STOP_BIT : Nat := 1

/-- The constant `UART_FRAME_SIZE`: start + data + stop. -/
def UART_FRAME_SIZE : Nat := 1 + UART_DATA_BITS + 1

/-- The constant `MAX_BUFFER_SIZE`. -/
def MAX_BUFFER_SIZE : Nat := 256

/-- Number of values of a `size_t` (64-bit target). -/
def SIZE_MODULUS : Nat := 18446744073709551616

/-- A `uint8_t`. -/
abbrev Byte := Fin 256

/-! ## Data model -/

/-- The struct `uart_frame_t`. -/
structure uart_frame_t where
  start_bit : Byte
  data_bits : Byte
  stop_bit : Byte
  deriving DecidableEq

/-- The struct `uart_buffer_t`.  The member `data` is an array of exactly
`MAX_BUFFER_SIZE` bytes, which `data_len` records. -/
structure uart_buffer_t where
  data : List Byte
  data_len : data.length = MAX_BUFFER_SIZE
  head : Nat
  tail : Nat
  count : Nat
  capacity : Nat
  deriving DecidableEq

/-! ## Circular buffer (`uart_sim.c`, lines 6-65) -/

/-- The function `init_uart_buffer`: a null pointer is left alone, otherwise the
array is zeroed, the cursors and the count are reset, and the capacity is set. -/
def init_uart_buffer (buffer : Option uart_buffer_t) : Option uart_buffer_t :=
  match buffer with
  | none => none
  | some _ =>
    some { data := List.replicate MAX_BUFFER_SIZE 0
           data_len := List.length_replicate _ _
           head := 0
           tail := 0
           count := 0
           capacity := MAX_BUFFER_SIZE }

/-- The function `buffer_is_empty`. -/
def buffer_is_empty (buffer : Option uart_buffer_t) : Bool :=
  match buffer with
  | some b => decide (b.count = 0)
  | none => true

/-- The function `buffer_is_full`. -/
def buffer_is_full (buffer : Option uart_buffer_t) : Bool :=
  match buffer with
  | some b => decide (b.count ≥ b.capacity)
  | none => true

/-- The function `buffer_count`. -/
def buffer_count (buffer : Option uart_buffer_t) : Nat :=
  match buffer with
  | some b => b.count
  | none => 0

/-- The function `buffer_write`: the returned pair is the C return value and
the pointee afterwards.  The store `buffer->data[buffer->head] = data` is
`List.set`, which has no effect for an index outside the array (in C such a
store is undefined; it does not occur when `head < MAX_BUFFER_SIZE`). -/
def buffer_write (buffer : Option uart_buffer_t) (data : Byte) :
    Bool × Option uart_buffer_t :=
  match buffer with
  | none => (false, none)
  | some b =>
    if buffer_is_full (some b) then (false, some b)
    else
      (true, some { data := b.data.set b.head data
                    data_len := by rw [List.length_set]; exact b.data_len
                    head := ((b.head + 1) % SIZE_MODULUS) % b.capacity
                    tail := b.tail
                    count := (b.count + 1) % SIZE_MODULUS
                    capacity := b.capacity })

/-- The function `buffer_read`.  The second argument is the out-pointer `data`
(`none` null, `some v` a cell that holds `v`); the result is the C return
value, the buffer pointee afterwards and the out-cell afterwards.  The load
`buffer->data[buffer->tail]` is `List.getD`, which gives `0` for an index outside
the array (undefined in C; it does not occur when `tail < MAX_BUFFER_SIZE`).
In the success branch `count` is not `0`, so `count--` does not wrap. -/
def buffer_read (buffer : Option uart_buffer_t) (data : Option Byte) :
    Bool × Option uart_buffer_t × Option Byte :=
  match buffer, data with
  | none, _ => (false, none, data)
  | some b, none => (false, some b, none)
  | some b, some v =>
    if buffer_is_empty (some b) then (false, some b, some v)
    else
      (true, some { data := b.data
                    data_len := b.data_len
                    head := b.head
                    tail := ((b.tail + 1) % SIZE_MODULUS) % b.capacity
                    count := b.count - 1
                    capacity := b.capacity },
       some (b.data.getD b.tail 0))

/-! ## Frame codec (`uart_sim.c`, lines 70-181) -/

/-- The function `encode_uart_frame`. -/
def encode_uart_frame (data : Byte) : uart_frame_t :=
  { start_bit := ⟨UART_START_BIT, by decide⟩
    data_bits := data
    stop_bit := ⟨UART_STOP_BIT, by decide⟩ }

/-- The function `decode_uart_frame`. -/
def decode_uart_frame (frame : uart_frame_t) : Byte :=
  frame.data_bits

/-- The symbols that `simulate_transmission` prints on its `Sequence:` line for
the frame it has built (lines 136-146): the start bit, then for
`i = 0 .. UART_DATA_BITS - 1` the value `(frame.data_bits >> i) & 1`, then the
stop bit. -/
def transmission_sequence (frame : uart_frame_t) : List Nat :=
  [frame.start_bit.val]
    ++ (List.range UART_DATA_BITS).map (fun i => (frame.data_bits.val >>> i) &&& 1)
    ++ [frame.stop_bit.val]

/-- The function `simulate_transmission`: the frame is `encode_uart_frame data`;
the result is the printed symbol sequence and the printed total
(`UART_FRAME_SIZE`). -/
def simulate_transmission (data : Byte) : List Nat × Nat :=
  let frame := encode_uart_frame data
  (transmission_sequence frame, UART_FRAME_SIZE)

/-- What `simulate_reception` reports: one of its two error messages (with the
expected and the received bit it prints) or the success line with the decoded
byte. -/
inductive reception_result where
  | InvalidStartBit (expected got : Nat)
  | InvalidStopBit (expected got : Nat)
  | Ok (decoded_data : Byte)
  deriving DecidableEq

/-- The function `simulate_reception` (validation and decoding, lines 162-178). -/
def simulate_reception (frame : uart_frame_t) : reception_result :=
  if frame.start_bit.val ≠ UART_START_BIT then
    reception_result.InvalidStartBit UART_START_BIT frame.start_bit.val
  else if frame.stop_bit.val ≠ UART_STOP_BIT then
    reception_result.InvalidStopBit UART_STOP_BIT frame.stop_bit.val
  else
    reception_result.Ok (decode_uart_frame frame)

/-! ## Call sequences

Drivers for the scenarios of the specification: they only chain calls of the
functions above, threading the pointee from one call to the next. -/

/-- Successive `buffer_write` calls, one per element of the list, in order; the
result is the list of return values and the final pointee. -/
def write_all (buffer : Option uart_buffer_t) :
    List Byte → List Bool × Option uart_buffer_t
  | [] => ([], buffer)
  | d :: ds =>
    let r := buffer_write buffer d
    let rs := write_all r.2 ds
    (r.1 :: rs.1, rs.2)

/-- A number of successive `buffer_read` calls through the same out-pointer; the
result lists, per call, the return value and the out-cell after the call, and
gives the final buffer pointee and out-cell. -/
def read_many (buffer : Option uart_buffer_t) (data : Option Byte) :
    Nat → List (Bool × Option Byte) × Option uart_buffer_t × Option Byte
  | 0 => ([], buffer, data)
  | n + 1 =>
    let r := buffer_read buffer data
    let rs := read_many r.2.1 r.2.2 n
    ((r.1, r.2.2) :: rs.1, rs.2)

/-- One call on a buffer: a write of a byte, a read through an out-pointer, or
a re-initialisation. -/
inductive buffer_op where
  | write (data : Byte)
  | read (data : Option Byte)
  | init
  deriving DecidableEq

/-- The pointee after one call. -/
def apply_op (buffer : Option uart_buffer_t) : buffer_op → Option uart_buffer_t
  | buffer_op.write d => (buffer_write buffer d).2
  | buffer_op.read out => (buffer_read buffer out).2.1
  | buffer_op.init => init_uart_buffer buffer

/-- The pointee after a finite sequence of calls. -/
def run_ops (buffer : Option uart_buffer_t) (ops : List buffer_op) :
    Option uart_buffer_t :=
  ops.foldl apply_op buffer

/-- The capacity scenario of the specification: initialise, write the bytes
`bs`, write `d1`, read once, write `d2`, write `d3`.  The result is the list of
return values of the writes of `bs`, the return value of the write of `d1`, the
return value and out-cell of the read, and the return values of the writes of
`d2` and `d3`. -/
def capacity_scenario (b0 : uart_buffer_t) (bs : List Byte) (d1 d2 d3 v : Byte) :
    List Bool × Bool × (Bool × Option Byte) × Bool × Bool :=
  let w := write_all (init_uart_buffer (some b0)) bs
  let w1 := buffer_write w.2 d1
  let r := buffer_read w1.2 (some v)
  let w2 := buffer_write r.2.1 d2
  let w3 := buffer_write w2.2 d3
  (w.1, w1.1, (r.1, r.2.2), w2.1, w3.1)

/-! ## Invariants and abstraction -/

/-- The buffer invariant of the specification: the capacity is
`MAX_BUFFER_SIZE`, the count is at most the capacity and both cursors are below
the capacity. -/
def buffer_inv (b : uart_buffer_t) : Prop :=
  b.capacity = MAX_BUFFER_SIZE ∧ b.count ≤ b.capacity ∧
    b.head < b.capacity ∧ b.tail < b.capacity

instance (b : uart_buffer_t) : Decidable (buffer_inv b) := by
  unfold buffer_inv; infer_instance

/-- The invariant on a pointer: it is not null and its pointee satisfies
`buffer_inv`. -/
def buffer_inv_ptr (buffer : Option uart_buffer_t) : Prop :=
  match buffer with
  | some b => buffer_inv b
  | none => False

instance (buffer : Option uart_buffer_t) : Decidable (buffer_inv_ptr buffer) := by
  unfold buffer_inv_ptr; split <;> infer_instance

/-- The stored bytes, oldest first: the cells `data[(tail + i) % capacity]` for
`i < count`. -/
def contents (b : uart_buffer_t) : List Byte :=
  (List.range b.count).map (fun i => b.data.getD ((b.tail + i) % b.capacity) 0)

/-- The invariant together with the relation between the cursors and the count
that the operations maintain. -/
def buffer_wf (b : uart_buffer_t) : Prop :=
  buffer_inv b ∧ b.head = (b.tail + b.count) % b.capacity

/-- A full buffer used in examples: 256 stored bytes `0, 1, ..., 255`, both
cursors at index 3. -/
def full_example : uart_buffer_t :=
  { data := (List.range 256).map (fun i => ((i : Nat) : Byte))
    data_len := by simp [MAX_BUFFER_SIZE]
    head := 3
    tail := 3
    count := 256
    capacity := 256 }

/-- An empty buffer used in examples: no stored byte, stale bytes in the array,
both cursors at index 5. -/
def empty_example : uart_buffer_t :=
  { data := (List.range 256).map (fun i => ((i : Nat) : Byte))
    data_len := by simp [MAX_BUFFER_SIZE]
    head := 5
    tail := 5
    count := 0
    capacity := 256 }

instance (b : uart_buffer_t) : Decidable (buffer_wf b) := by
  unfold buffer_wf; infer_instance

/-- The stored bytes behind a pointer; a null pointer stores nothing. -/
def contents_ptr (buffer : Option uart_buffer_t) : List Byte :=
  match buffer with
  | some b => contents b
  | none => []

/-- A partly filled buffer whose stored bytes wrap past index 255: three bytes
at the cells 254, 255 and 0. -/
def wrapped_example : uart_buffer_t :=
  { data := (List.range 256).map (fun i => ((i : Nat) : Byte))
    data_len := by simp [MAX_BUFFER_SIZE]
    head := 1
    tail := 254
    count := 3
    capacity := 256 }

/-- A state that satisfies `buffer_inv` although its write cursor is not at
`(tail + count) % capacity`: empty, zeroed array, `head = 5`, `tail = 0`. -/
def skewed_example : uart_buffer_t :=
  { data := List.replicate MAX_BUFFER_SIZE 0
    data_len := List.length_replicate _ _
    head := 5
    tail := 0
    count := 0
    capacity := 256 }

/-! ## Orchestration (`uart_sim.c`, lines 203-316) -/

/-- The function `clear_buffers`: both pointers go through `init_uart_buffer`,
the TX buffer first. -/
def clear_buffers (tx_buffer rx_buffer : Option uart_buffer_t) :
    Option uart_buffer_t × Option uart_buffer_t :=
  let tx := init_uart_buffer tx_buffer
  let rx := init_uart_buffer rx_buffer
  (tx, rx)

/-- The display loop of `receive_data` (line 271):
`while (buffer_read(&temp_buffer, &data))`, one printed line per successful
read.  The first argument bounds the number of loop tests; `none` means the
bound was reached.  The result lists the out-cell printed by each iteration and
gives the temporary buffer after the loop. -/
def receive_loop : Nat → Option uart_buffer_t → Option Byte →
    Option (List (Option Byte) × Option uart_buffer_t)
  | 0, _, _ => none
  | fuel + 1, temp_buffer, data =>
    let r := buffer_read temp_buffer data
    if r.1 then
      (receive_loop fuel r.2.1 r.2.2).map (fun t => (r.2.2 :: t.1, t.2))
    else
      some ([], r.2.1)

/-- What `receive_data` prints: the notice that the buffer has no data, or the
listed bytes followed by the total. -/
inductive receive_report where
  | no_data
  | listing (bytes : List (Option Byte)) (total : Nat)
  deriving DecidableEq

/-- The function `receive_data`.  `data` is the indeterminate initial value of
the local out-cell, `choice` the character read after the listing, and the
first argument bounds the loop tests.  The listing is made on `temp_buffer`, a
copy by value of the pointee; the local counter is the number of printed lines
(an `int`, which does not wrap for counts up to `MAX_BUFFER_SIZE`).  The result
is the report and the pointee of `rx_buffer` afterwards. -/
def receive_data (fuel : Nat) (rx_buffer : Option uart_buffer_t) (data : Byte)
    (choice : Char) : Option (receive_report × Option uart_buffer_t) :=
  if buffer_is_empty rx_buffer then
    some (receive_report.no_data, rx_buffer)
  else
    let temp_buffer := rx_buffer
    match receive_loop fuel temp_buffer (some data) with
    | none => none
    | some (printed, _) =>
      let count := printed.length
      if choice = 'y' ∨ choice = 'Y' then
        some (receive_report.listing printed count, init_uart_buffer rx_buffer)
      else
        some (receive_report.listing printed count, rx_buffer)

/-- What one iteration of the loop of `transmit_data` does after the TX write
succeeded: the byte, the output of `simulate_transmission`, the frame handed to
`simulate_reception`, its report, and the return value of the RX write. -/
structure transmit_step where
  byte : Byte
  transmission : List Nat × Nat
  frame : uart_frame_t
  reception : reception_result
  rx_written : Bool
  deriving DecidableEq

/-- The loop of `transmit_data` (lines 226-249) over the input bytes.  A failed
TX write ends the loop (`break`); a failed RX write only prints a message.  The
result is the list of completed iterations, whether the loop ended on a full
TX buffer, and the pointees of the TX and RX buffers afterwards. -/
def transmit_loop (tx_buffer rx_buffer : Option uart_buffer_t) :
    List Byte → List transmit_step × Bool × Option uart_buffer_t × Option uart_buffer_t
  | [] => ([], false, tx_buffer, rx_buffer)
  | byte :: rest =>
    let w := buffer_write tx_buffer byte
    if w.1 = false then
      ([], true, w.2, rx_buffer)
    else
      let s := simulate_transmission byte
      let frame := encode_uart_frame byte
      let rc := simulate_reception frame
      let wr := buffer_write rx_buffer byte
      let t := transmit_loop w.2 wr.2 rest
      ({ byte := byte, transmission := s, frame := frame, reception := rc,
         rx_written := wr.1 } :: t.1, t.2.1, t.2.2.1, t.2.2.2)

/-! ## Bounded FIFO queue of the specification -/

/-- The write of the bounded FIFO queue as the specification words it: a queue
of fewer than 256 bytes accepts the byte at its end, a queue of 256 bytes
rejects it and stays as it is. -/
def fifo_write (q : List Byte) (d : Byte) : Bool × List Byte :=
  if q.length < 256 then (true, q ++ [d]) else (false, q)

/-- The read of the bounded FIFO queue as the specification words it: a
non-empty queue delivers its oldest byte and keeps the rest, an empty queue
delivers nothing and stays empty. -/
def fifo_read (q : List Byte) : Option Byte × List Byte :=
  match q with
  | x :: rest => (some x, rest)
  | [] => (none, [])

/-- The bytes accepted by the successful writes and the bytes delivered by the
successful reads of a sequence of calls, each in call order, with the final
pointee.  A re-initialisation contributes to neither list. -/
def run_trace (buffer : Option uart_buffer_t) :
    List buffer_op → List Byte × List Byte × Option uart_buffer_t
  | [] => ([], [], buffer)
  | buffer_op.write d :: ops =>
    let r := buffer_write buffer d
    let t := run_trace r.2 ops
    (if r.1 then d :: t.1 else t.1, t.2.1, t.2.2)
  | buffer_op.read out :: ops =>
    let r := buffer_read buffer out
    let t := run_trace r.2.1 ops
    (t.1, if r.1 then r.2.2.toList ++ t.2.1 else t.2.1, t.2.2)
  | buffer_op.init :: ops =>
    run_trace (init_uart_buffer buffer) ops

/-- The data symbols of a printed sequence read back as a number: the sum over
`i = 0 .. 7` of symbol `1 + i` times `2 ^ i`. -/
def data_symbols_value (symbols : List Nat) : Nat :=
  ((List.range UART_DATA_BITS).map (fun i => symbols.getD (1 + i) 0 * 2 ^ i)).sum

/-! ## Single-step lemmas for the circular buffer -/

theorem init_uart_buffer_wf (b0 : uart_buffer_t) :
    ∃ b, init_uart_buffer (some b0) = some b ∧ buffer_wf b ∧ contents b = [] ∧
      b.count = 0 := by
  refine ⟨_, rfl, ?_, ?_, rfl⟩
  · simp [buffer_wf, buffer_inv, MAX_BUFFER_SIZE]
  · simp [contents]

theorem buffer_write_full (b : uart_buffer_t) (d : Byte) (h : b.capacity ≤ b.count) :
    buffer_write (some b) d = (false, some b) := by
  simp [buffer_write, buffer_is_full, h]

theorem buffer_read_empty (b : uart_buffer_t) (out : Option Byte) (h : b.count = 0) :
    buffer_read (some b) out = (false, some b, out) := by
  cases out with
  | none => rfl
  | some v => simp [buffer_read, buffer_is_empty, h]

theorem buffer_write_ok (b : uart_buffer_t) (d : Byte) (h : b.count < b.capacity) :
    ∃ b1, buffer_write (some b) d = (true, some b1) ∧
      b1.data = b.data.set b.head d ∧
      b1.head = ((b.head + 1) % SIZE_MODULUS) % b.capacity ∧
      b1.tail = b.tail ∧
      b1.count = (b.count + 1) % SIZE_MODULUS ∧
      b1.capacity = b.capacity := by
  have hnf : ¬ b.capacity ≤ b.count := Nat.not_le.mpr h
  refine ⟨{ data := b.data.set b.head d
            data_len := by rw [List.length_set]; exact b.data_len
            head := ((b.head + 1) % SIZE_MODULUS) % b.capacity
            tail := b.tail
            count := (b.count + 1) % SIZE_MODULUS
            capacity := b.capacity }, ?_, rfl, rfl, rfl, rfl, rfl⟩
  simp [buffer_write, buffer_is_full, hnf]

theorem buffer_read_ok (b : uart_buffer_t) (v : Byte) (h : b.count ≠ 0) :
    ∃ b1, buffer_read (some b) (some v) = (true, some b1, some (b.data.getD b.tail 0)) ∧
      b1.data = b.data ∧
      b1.head = b.head ∧
      b1.tail = ((b.tail + 1) % SIZE_MODULUS) % b.capacity ∧
      b1.count = b.count - 1 ∧
      b1.capacity = b.capacity := by
  refine ⟨{ data := b.data
            data_len := b.data_len
            head := b.head
            tail := ((b.tail + 1) % SIZE_MODULUS) % b.capacity
            count := b.count - 1
            capacity := b.capacity }, ?_, rfl, rfl, rfl, rfl, rfl⟩
  simp [buffer_read, buffer_is_empty, h]

theorem buffer_write_wf (b : uart_buffer_t) (d : Byte) (hwf : buffer_wf b)
    (h : b.count < MAX_BUFFER_SIZE) :
    ∃ b1, buffer_write (some b) d = (true, some b1) ∧ buffer_wf b1 ∧
      contents b1 = contents b ++ [d] ∧ b1.count = b.count + 1 := by
  obtain ⟨⟨hcap, hcnt, hhead, htail⟩, hrel⟩ := hwf
  have hcap1 : b.capacity = 256 := hcap
  have h1 : b.count < 256 := h
  have hlt : b.count < b.capacity := by omega
  obtain ⟨b1, hw, hdata, hh, ht, hc, hk⟩ := buffer_write_ok b d hlt
  rw [hcap1] at hcnt hhead htail hrel hh hk
  simp only [SIZE_MODULUS] at hh hc
  have hc1 : b1.count = b.count + 1 := by omega
  have hlen : b.data.length = 256 := b.data_len
  have hwf1 : buffer_wf b1 := by
    refine ⟨⟨hk, ?_, ?_, ?_⟩, ?_⟩ <;> rw [hk] <;> omega
  refine ⟨b1, hw, hwf1, ?_, hc1⟩
  unfold contents
  rw [hc1, List.range_succ, List.map_append, hdata, ht, hk, hcap1]
  congr 1
  · apply List.map_congr_left
    intro i hi
    have hi1 : i < b.count := List.mem_range.mp hi
    have hne : b.head ≠ (b.tail + i) % 256 := by omega
    simp [List.getElem?_set_ne hne]
  · have hin : b.head < b.data.length := by omega
    simp [← hrel, List.getElem?_set_self hin]

theorem buffer_read_wf (b : uart_buffer_t) (v : Byte) (hwf : buffer_wf b)
    (h : b.count ≠ 0) :
    ∃ b1 x, buffer_read (some b) (some v) = (true, some b1, some x) ∧ buffer_wf b1 ∧
      contents b = x :: contents b1 ∧ b1.count + 1 = b.count := by
  obtain ⟨⟨hcap, hcnt, hhead, htail⟩, hrel⟩ := hwf
  have hcap1 : b.capacity = 256 := hcap
  obtain ⟨b1, hr, hdata, hh, ht, hc, hk⟩ := buffer_read_ok b v h
  rw [hcap1] at hcnt hhead htail hrel ht hk
  simp only [SIZE_MODULUS] at ht
  have hwf1 : buffer_wf b1 := by
    refine ⟨⟨hk, ?_, ?_, ?_⟩, ?_⟩ <;> rw [hk] <;> omega
  refine ⟨b1, _, hr, hwf1, ?_, by omega⟩
  unfold contents
  obtain ⟨n, hn⟩ : ∃ n, b.count = n + 1 := ⟨b.count - 1, by omega⟩
  rw [hc, hn, List.range_succ_eq_map, List.map_cons, List.map_map, hdata, ht, hk, hcap1]
  congr 1
  · have h0 : (b.tail + 0) % 256 = b.tail := by omega
    rw [h0]
  · apply List.map_congr_left
    intro i _
    have hidx : ((b.tail + 1) % 18446744073709551616 % 256 + i) % 256
        = (b.tail + (i + 1)) % 256 := by omega
    simp [hidx]

/-! ## Lemmas on call sequences -/

theorem contents_length (b : uart_buffer_t) : (contents b).length = b.count := by
  simp [contents]

theorem write_all_wf (ds : List Byte) :
    ∀ b : uart_buffer_t, buffer_wf b → b.count + ds.length ≤ MAX_BUFFER_SIZE →
      ∃ b1, write_all (some b) ds = (List.replicate ds.length true, some b1) ∧
        buffer_wf b1 ∧ contents b1 = contents b ++ ds ∧
        b1.count = b.count + ds.length := by
  induction ds with
  | nil =>
    intro b hwf _
    exact ⟨b, rfl, hwf, by simp, rfl⟩
  | cons d ds ih =>
    intro b hwf hlen
    have hlen1 : b.count + (ds.length + 1) ≤ MAX_BUFFER_SIZE := by simpa using hlen
    obtain ⟨b1, hw, hwf1, hcont1, hcnt1⟩ :=
      buffer_write_wf b d hwf (by omega)
    obtain ⟨b2, hws, hwf2, hcont2, hcnt2⟩ := ih b1 hwf1 (by omega)
    refine ⟨b2, ?_, hwf2, ?_, ?_⟩
    · simp [write_all, hw, hws, List.replicate_succ]
    · rw [hcont2, hcont1]; simp
    · rw [hcnt2, hcnt1, List.length_cons]; omega

theorem read_many_wf (xs : List Byte) :
    ∀ (b : uart_buffer_t) (v : Byte) (rest : List Byte), buffer_wf b →
      contents b = xs ++ rest →
      ∃ b1 c, read_many (some b) (some v) xs.length
          = (xs.map (fun x => (true, some x)), some b1, some c) ∧
        buffer_wf b1 ∧ contents b1 = rest := by
  induction xs with
  | nil =>
    intro b v rest hwf hc
    exact ⟨b, v, rfl, hwf, by simpa using hc⟩
  | cons x xs ih =>
    intro b v rest hwf hc
    have hne : b.count ≠ 0 := by
      have hl := contents_length b
      rw [hc] at hl
      simp at hl
      omega
    obtain ⟨b1, y, hr, hwf1, hcont, _⟩ := buffer_read_wf b v hwf hne
    rw [hc, List.cons_append, List.cons.injEq] at hcont
    obtain ⟨hxy, hrest⟩ := hcont
    obtain ⟨b2, c, hrs, hwf2, hcont2⟩ := ih b1 y rest hwf1 hrest.symm
    refine ⟨b2, c, ?_, hwf2, hcont2⟩
    simp [read_many, hr, hrs, hxy]

theorem init_uart_buffer_inv (b0 : uart_buffer_t) :
    buffer_inv_ptr (init_uart_buffer (some b0)) := by
  show buffer_inv _
  exact ⟨rfl, Nat.zero_le _, by decide, by decide⟩

theorem buffer_write_inv (b : uart_buffer_t) (d : Byte) (h : buffer_inv b) :
    buffer_inv_ptr (buffer_write (some b) d).2 := by
  by_cases hf : b.capacity ≤ b.count
  · rw [buffer_write_full b d hf]
    exact h
  · obtain ⟨b1, hw, _, hh, ht, hc, hk⟩ := buffer_write_ok b d (Nat.not_le.mp hf)
    rw [hw]
    obtain ⟨hcap, hcnt, hhead, htail⟩ := h
    have hcap1 : b.capacity = 256 := hcap
    rw [hcap1] at hcnt hhead htail hh hk hf
    simp only [SIZE_MODULUS] at hh hc
    show buffer_inv b1
    refine ⟨hk, ?_, ?_, ?_⟩ <;> rw [hk] <;> omega

theorem buffer_read_inv (b : uart_buffer_t) (out : Option Byte) (h : buffer_inv b) :
    buffer_inv_ptr (buffer_read (some b) out).2.1 := by
  cases out with
  | none => exact h
  | some v =>
    by_cases he : b.count = 0
    · rw [buffer_read_empty b (some v) he]
      exact h
    · obtain ⟨b1, hr, _, hh, ht, hc, hk⟩ := buffer_read_ok b v he
      rw [hr]
      obtain ⟨hcap, hcnt, hhead, htail⟩ := h
      have hcap1 : b.capacity = 256 := hcap
      rw [hcap1] at hcnt hhead htail ht hk
      simp only [SIZE_MODULUS] at ht
      show buffer_inv b1
      refine ⟨hk, ?_, ?_, ?_⟩ <;> rw [hk] <;> omega

theorem apply_op_inv (buffer : Option uart_buffer_t) (op : buffer_op)
    (h : buffer_inv_ptr buffer) : buffer_inv_ptr (apply_op buffer op) := by
  cases buffer with
  | none => exact absurd h (by simp [buffer_inv_ptr])
  | some b =>
    cases op with
    | write d => exact buffer_write_inv b d h
    | read out => exact buffer_read_inv b out h
    | init => exact init_uart_buffer_inv b

theorem run_ops_inv (ops : List buffer_op) :
    ∀ buffer : Option uart_buffer_t, buffer_inv_ptr buffer →
      buffer_inv_ptr (run_ops buffer ops) := by
  induction ops with
  | nil => intro buffer h; exact h
  | cons op ops ih =>
    intro buffer h
    exact ih (apply_op buffer op) (apply_op_inv buffer op h)

/-! ## Theorems -/

/-- C1 (FIFO law).  Starting from the buffer that `init_uart_buffer` produces
(from any prior pointee), writing the elements of a list `bs` of at most 256
bytes with successive `buffer_write` calls succeeds every time; the following
`bs.length` calls of `buffer_read` all return `true` and deliver exactly the
bytes of `bs` in the order written; and one further `buffer_read` returns
`false`. -/
theorem fifo_law (b0 : uart_buffer_t) (bs : List Byte) (v : Byte)
    (h : bs.length ≤ 256) :
    (write_all (init_uart_buffer (some b0)) bs).1 = List.replicate bs.length true ∧
    (read_many (write_all (init_uart_buffer (some b0)) bs).2 (some v) bs.length).1
      = bs.map (fun x => (true, some x)) ∧
    (buffer_read
        (read_many (write_all (init_uart_buffer (some b0)) bs).2 (some v) bs.length).2.1
        (read_many (write_all (init_uart_buffer (some b0)) bs).2 (some v) bs.length).2.2).1
      = false := by
  obtain ⟨b, hinit, hwf, hcont, hcnt⟩ := init_uart_buffer_wf b0
  obtain ⟨b1, hw, hwf1, hcont1, _⟩ :=
    write_all_wf bs b hwf (by rw [hcnt]; simpa [MAX_BUFFER_SIZE] using h)
  rw [hcont, List.nil_append] at hcont1
  obtain ⟨b2, c, hr, hwf2, hcont2⟩ :=
    read_many_wf bs b1 v [] hwf1 (by rw [hcont1, List.append_nil])
  have hc2 : b2.count = 0 := by rw [← contents_length, hcont2]; rfl
  rw [hinit, hw, hr]
  exact ⟨rfl, rfl, by rw [buffer_read_empty b2 (some c) hc2]⟩

/-- Witness for C1: the scenario of the specification, `bs = [65, 66]`, run from
the initialisation of a full buffer. -/
theorem fifo_law_witness :
    ([65, 66] : List Byte).length ≤ 256 ∧
    (write_all (init_uart_buffer (some full_example)) [65, 66]).1 = [true, true] ∧
    (read_many (write_all (init_uart_buffer (some full_example)) [65, 66]).2 (some 0) 2).1
      = [(true, some 65), (true, some 66)] ∧
    (buffer_read
        (read_many (write_all (init_uart_buffer (some full_example)) [65, 66]).2
          (some 0) 2).2.1
        (read_many (write_all (init_uart_buffer (some full_example)) [65, 66]).2
          (some 0) 2).2.2).1 = false :=
  ⟨by decide, fifo_law full_example [65, 66] 0 (by decide)⟩

/-- C2 (write to a full buffer).  For every buffer state with
`count = capacity` and every byte, `buffer_write` returns `false` and the
pointee afterwards is the input state, equal in every field; so the count is
unchanged and the stored bytes, the oldest included, are the same. -/
theorem buffer_write_full_rejected (b : uart_buffer_t) (d : Byte)
    (h : b.count = b.capacity) :
    buffer_is_full (some b) = true ∧
    buffer_write (some b) d = (false, some b) ∧
    buffer_count (buffer_write (some b) d).2 = b.count ∧
    (∀ b1, (buffer_write (some b) d).2 = some b1 → contents b1 = contents b) := by
  have hw := buffer_write_full b d (Nat.le_of_eq h.symm)
  refine ⟨by simp [buffer_is_full, h], hw, by rw [hw]; rfl, ?_⟩
  intro b1 hb1
  rw [hw] at hb1
  cases hb1
  rfl

/-- Witness for C2: a full buffer holding `0 .. 255` with both cursors at 3. -/
theorem buffer_write_full_rejected_witness :
    full_example.count = full_example.capacity ∧
    buffer_is_full (some full_example) = true ∧
    buffer_write (some full_example) 7 = (false, some full_example) ∧
    buffer_count (buffer_write (some full_example) 7).2 = full_example.count ∧
    (∀ b1, (buffer_write (some full_example) 7).2 = some b1 →
      contents b1 = contents full_example) :=
  ⟨rfl, buffer_write_full_rejected full_example 7 rfl⟩

/-- C3 (read from an empty buffer).  For every buffer state with `count = 0`
and every out-pointer, `buffer_read` returns `false`, leaves the out-cell as it
was, and leaves the buffer state equal to the input in every field. -/
theorem buffer_read_empty_rejected (b : uart_buffer_t) (out : Option Byte)
    (h : b.count = 0) :
    buffer_is_empty (some b) = true ∧
    buffer_read (some b) out = (false, some b, out) := by
  exact ⟨by simp [buffer_is_empty, h], buffer_read_empty b out h⟩

/-- Witness for C3: an empty buffer with stale bytes, out-cell holding 9. -/
theorem buffer_read_empty_rejected_witness :
    empty_example.count = 0 ∧
    buffer_is_empty (some empty_example) = true ∧
    buffer_read (some empty_example) (some 9) = (false, some empty_example, some 9) :=
  ⟨rfl, buffer_read_empty_rejected empty_example (some 9) rfl⟩

/-- C4 (codec round trip).  For every byte `b`,
`decode_uart_frame (encode_uart_frame b) = b`. -/
theorem decode_encode (b : Byte) : decode_uart_frame (encode_uart_frame b) = b :=
  rfl

/-- C5 (encode yields a valid frame).  For every byte `b`, `encode_uart_frame b`
is exactly the frame with start bit 0, data bits `b` and stop bit 1, and
`simulate_reception` takes neither error branch on it: it reports success with
the decoded byte `b`. -/
theorem encode_uart_frame_valid (b : Byte) :
    encode_uart_frame b = { start_bit := 0, data_bits := b, stop_bit := 1 } ∧
    simulate_reception (encode_uart_frame b) = reception_result.Ok b := by
  exact ⟨rfl, rfl⟩

/-- C6 (start bit checked first).  For every frame whose start bit is not 0,
whatever its stop bit and data bits, `simulate_reception` reports the invalid
start bit (expected 0, got the start bit), never an invalid stop bit and never a
decoded byte; replacing the stop bit and the data bits by any other values does
not change the report. -/
theorem simulate_reception_start_first (f : uart_frame_t) (h : f.start_bit ≠ 0) :
    simulate_reception f = reception_result.InvalidStartBit 0 f.start_bit.val ∧
    (∀ e g, simulate_reception f ≠ reception_result.InvalidStopBit e g) ∧
    (∀ d, simulate_reception f ≠ reception_result.Ok d) ∧
    (∀ s d, simulate_reception { start_bit := f.start_bit, data_bits := d, stop_bit := s }
      = simulate_reception f) := by
  have hv : f.start_bit.val ≠ UART_START_BIT := fun hc => h (Fin.ext hc)
  have hr : ∀ s d, simulate_reception { start_bit := f.start_bit, data_bits := d, stop_bit := s }
      = reception_result.InvalidStartBit 0 f.start_bit.val := by
    intro s d
    simp only [simulate_reception]
    rw [if_pos hv]
    rfl
  have h0 : simulate_reception f = reception_result.InvalidStartBit 0 f.start_bit.val :=
    hr f.stop_bit f.data_bits
  refine ⟨h0, ?_, ?_, ?_⟩
  · intro e g hc
    rw [h0] at hc
    cases hc
  · intro d hc
    rw [h0] at hc
    cases hc
  · intro s d
    rw [hr s d, h0]

/-- Witness for C6: start bit 1, stop bit 0 (both corrupt), data bits 0x5A. -/
theorem simulate_reception_start_first_witness :
    (1 : Byte) ≠ 0 ∧
    simulate_reception ⟨1, 0x5A, 0⟩ = reception_result.InvalidStartBit 0 1 ∧
    (∀ e g, simulate_reception ⟨1, 0x5A, 0⟩ ≠ reception_result.InvalidStopBit e g) ∧
    (∀ d, simulate_reception ⟨1, 0x5A, 0⟩ ≠ reception_result.Ok d) ∧
    (∀ s d, simulate_reception { start_bit := 1, data_bits := d, stop_bit := s }
      = simulate_reception ⟨1, 0x5A, 0⟩) :=
  ⟨by decide, simulate_reception_start_first ⟨1, 0x5A, 0⟩ (by decide)⟩

theorem simulate_reception_cases (f : uart_frame_t) :
    (f.start_bit ≠ 0 ∧
      simulate_reception f = reception_result.InvalidStartBit 0 f.start_bit.val) ∨
    (f.start_bit = 0 ∧ f.stop_bit ≠ 1 ∧
      simulate_reception f = reception_result.InvalidStopBit 1 f.stop_bit.val) ∨
    (f.start_bit = 0 ∧ f.stop_bit = 1 ∧
      simulate_reception f = reception_result.Ok f.data_bits) := by
  by_cases hs : f.start_bit = 0
  · by_cases ht : f.stop_bit = 1
    · refine Or.inr (Or.inr ⟨hs, ht, ?_⟩)
      simp [simulate_reception, hs, ht, UART_START_BIT, UART_STOP_BIT, decode_uart_frame]
    · refine Or.inr (Or.inl ⟨hs, ht, ?_⟩)
      have hv : f.stop_bit.val ≠ 1 := fun hc => ht (Fin.ext hc)
      simp [simulate_reception, hs, hv, UART_START_BIT, UART_STOP_BIT]
  · refine Or.inl ⟨hs, ?_⟩
    have hv : f.start_bit.val ≠ 0 := fun hc => hs (Fin.ext hc)
    simp [simulate_reception, hv, UART_START_BIT]

/-- C7 (corrupt frames are rejected, not repaired).  For every frame,
`simulate_reception` reports success if and only if the start bit is 0 and the
stop bit is 1; it reports an invalid stop bit if and only if the start bit is 0
and the stop bit is not 1; it reports an invalid start bit if and only if the
start bit is not 0; and a decoded byte is reported only on success, where it is
the frame's data bits unchanged. -/
theorem simulate_reception_validates (f : uart_frame_t) :
    ((∃ d, simulate_reception f = reception_result.Ok d) ↔
      (f.start_bit = 0 ∧ f.stop_bit = 1)) ∧
    ((∃ e g, simulate_reception f = reception_result.InvalidStopBit e g) ↔
      (f.start_bit = 0 ∧ f.stop_bit ≠ 1)) ∧
    ((∃ e g, simulate_reception f = reception_result.InvalidStartBit e g) ↔
      f.start_bit ≠ 0) ∧
    (∀ d, simulate_reception f = reception_result.Ok d →
      d = f.data_bits ∧ d = decode_uart_frame f) := by
  rcases simulate_reception_cases f with ⟨hs, hr⟩ | ⟨hs, ht, hr⟩ | ⟨hs, ht, hr⟩
  · refine ⟨⟨?_, fun hc => absurd hc.1 hs⟩, ⟨?_, fun hc => absurd hc.1 hs⟩,
      ⟨fun _ => hs, fun _ => ⟨_, _, hr⟩⟩, ?_⟩
    · rintro ⟨d, hd⟩
      rw [hr] at hd
      cases hd
    · rintro ⟨e, g, hd⟩
      rw [hr] at hd
      cases hd
    · intro d hd
      rw [hr] at hd
      cases hd
  · refine ⟨⟨?_, fun hc => absurd hc.2 ht⟩, ⟨fun _ => ⟨hs, ht⟩, fun _ => ⟨_, _, hr⟩⟩,
      ⟨?_, fun hc => absurd hs hc⟩, ?_⟩
    · rintro ⟨d, hd⟩
      rw [hr] at hd
      cases hd
    · rintro ⟨e, g, hd⟩
      rw [hr] at hd
      cases hd
    · intro d hd
      rw [hr] at hd
      cases hd
  · refine ⟨⟨fun _ => ⟨hs, ht⟩, fun _ => ⟨_, hr⟩⟩, ⟨?_, fun hc => absurd ht hc.2⟩,
      ⟨?_, fun hc => absurd hs hc⟩, ?_⟩
    · rintro ⟨e, g, hd⟩
      rw [hr] at hd
      cases hd
    · rintro ⟨e, g, hd⟩
      rw [hr] at hd
      cases hd
    · intro d hd
      rw [hr] at hd
      cases hd
      exact ⟨rfl, rfl⟩

/-- C8 (wire order of the bit sequence).  For every frame, the sequence that
`simulate_transmission` prints for it has exactly 10 symbols, the total it
reports: symbol 0 is the start bit, symbol `1 + i` for `i = 0 .. 7` is
`(data_bits >> i) & 1`, which is bit `i` of the data bits (least significant
first), and symbol 9 is the stop bit.  For every byte, `simulate_transmission`
prints that sequence for `encode_uart_frame` of the byte; for `0b10110001` it is
exactly `[0, 1,0,0,0,1,1,0,1, 1]`. -/
theorem transmission_wire_order (f : uart_frame_t) (b : Byte) :
    (transmission_sequence f).length = 10 ∧
    (transmission_sequence f)[0]? = some f.start_bit.val ∧
    (∀ i : Fin 8, (transmission_sequence f)[1 + i.val]?
        = some ((f.data_bits.val >>> i.val) &&& 1) ∧
      (f.data_bits.val >>> i.val) &&& 1 = f.data_bits.val / 2 ^ i.val % 2) ∧
    (transmission_sequence f)[9]? = some f.stop_bit.val ∧
    simulate_transmission b = (transmission_sequence (encode_uart_frame b), 10) ∧
    (simulate_transmission b).1.length = (simulate_transmission b).2 ∧
    simulate_transmission 0b10110001 = ([0, 1, 0, 0, 0, 1, 1, 0, 1, 1], 10) := by
  have hseq : transmission_sequence f =
      [f.start_bit.val,
        (f.data_bits.val >>> 0) &&& 1, (f.data_bits.val >>> 1) &&& 1,
        (f.data_bits.val >>> 2) &&& 1, (f.data_bits.val >>> 3) &&& 1,
        (f.data_bits.val >>> 4) &&& 1, (f.data_bits.val >>> 5) &&& 1,
        (f.data_bits.val >>> 6) &&& 1, (f.data_bits.val >>> 7) &&& 1,
        f.stop_bit.val] := rfl
  refine ⟨by rw [hseq]; rfl, by rw [hseq]; rfl, ?_, by rw [hseq]; rfl, rfl, rfl, by decide⟩
  intro i
  refine ⟨?_, ?_⟩
  · rw [hseq]
    fin_cases i <;> rfl
  · rw [Nat.shiftRight_eq_div_pow, Nat.and_one_is_mod]

/-- C9 (capacity boundary).  Starting from an initialised buffer, for every
choice of 256 bytes and of three more, the 256 writes all return `true`, the
257th write returns `false`, a read then returns `true` and delivers the first
byte written, one more write returns `true` and a further one returns
`false`. -/
theorem capacity_boundary (b0 : uart_buffer_t) (bs : List Byte) (d1 d2 d3 v : Byte)
    (h : bs.length = 256) :
    capacity_scenario b0 bs d1 d2 d3 v
      = (List.replicate 256 true, false, (true, bs.head?), true, false) := by
  obtain ⟨b, hinit, hwf, hcont, hcnt⟩ := init_uart_buffer_wf b0
  obtain ⟨b1, hw, hwf1, hcont1, hcnt1⟩ :=
    write_all_wf bs b hwf (by rw [hcnt, h]; decide)
  rw [hcont, List.nil_append] at hcont1
  rw [hcnt, h] at hcnt1
  have hcap1 : b1.capacity = 256 := hwf1.1.1
  have hw1 := buffer_write_full b1 d1 (by omega)
  obtain ⟨b2, x, hr, hwf2, hcont2, hcnt2⟩ := buffer_read_wf b1 v hwf1 (by omega)
  have hx : bs.head? = some x := by rw [← hcont1, hcont2]; rfl
  obtain ⟨b3, hw2, hwf3, _, hcnt3⟩ :=
    buffer_write_wf b2 d2 hwf2 (by simp only [MAX_BUFFER_SIZE]; omega)
  have hcap3 : b3.capacity = 256 := hwf3.1.1
  have hw3 := buffer_write_full b3 d3 (by omega)
  simp only [capacity_scenario, hinit, hw, hw1, hr, hw2, hw3, hx, h]

/-- Witness for C9: the 256 distinct bytes `0 .. 255`, then `1`, `2`, `3`. -/
theorem capacity_boundary_witness :
    (List.finRange 256).length = 256 ∧
    capacity_scenario full_example (List.finRange 256) 1 2 3 0
      = (List.replicate 256 true, false, (true, (List.finRange 256).head?), true, false) :=
  ⟨List.length_finRange 256,
    capacity_boundary full_example (List.finRange 256) 1 2 3 0 (List.length_finRange 256)⟩

/-- C10 (buffer invariant).  In every state reached from `init_uart_buffer` by a
finite sequence of `buffer_write`, `buffer_read` and `init_uart_buffer` calls,
successful or failing, the buffer is present, `capacity = 256`,
`0 ≤ count ≤ capacity`, `0 ≤ head < capacity` and `0 ≤ tail < capacity`.  The
predicate is established by `init_uart_buffer` and preserved by every
`buffer_write` and every `buffer_read`. -/
theorem buffer_invariant (b0 : uart_buffer_t) (ops : List buffer_op) :
    (∃ b, run_ops (init_uart_buffer (some b0)) ops = some b ∧
      b.capacity = 256 ∧ 0 ≤ b.count ∧ b.count ≤ b.capacity ∧
      0 ≤ b.head ∧ b.head < b.capacity ∧ 0 ≤ b.tail ∧ b.tail < b.capacity) ∧
    buffer_inv_ptr (init_uart_buffer (some b0)) ∧
    (∀ b d, buffer_inv b → buffer_inv_ptr (buffer_write (some b) d).2) ∧
    (∀ b out, buffer_inv b → buffer_inv_ptr (buffer_read (some b) out).2.1) := by
  refine ⟨?_, init_uart_buffer_inv b0, buffer_write_inv, buffer_read_inv⟩
  have hrun := run_ops_inv ops _ (init_uart_buffer_inv b0)
  cases hres : run_ops (init_uart_buffer (some b0)) ops with
  | none => rw [hres] at hrun; exact absurd hrun (by simp [buffer_inv_ptr])
  | some b =>
    rw [hres] at hrun
    obtain ⟨hcap, hcnt, hhead, htail⟩ := hrun
    exact ⟨b, rfl, hcap, Nat.zero_le _, hcnt, Nat.zero_le _, hhead, Nat.zero_le _, htail⟩

/-- Witness for C10: the preservation statements at a full buffer that satisfies
the invariant, and a run with failing and successful calls. -/
theorem buffer_invariant_witness :
    buffer_inv full_example ∧
    buffer_inv_ptr (buffer_write (some full_example) 7).2 ∧
    buffer_inv_ptr (buffer_read (some full_example) (some 0)).2.1 ∧
    (∃ b, run_ops (init_uart_buffer (some full_example))
        [buffer_op.read (some 0), buffer_op.write 65, buffer_op.read none,
          buffer_op.write 66, buffer_op.read (some 0), buffer_op.init,
          buffer_op.write 67] = some b ∧
      b.capacity = 256 ∧ 0 ≤ b.count ∧ b.count ≤ b.capacity ∧
      0 ≤ b.head ∧ b.head < b.capacity ∧ 0 ≤ b.tail ∧ b.tail < b.capacity) :=
  have hinv : buffer_inv full_example := by decide
  ⟨hinv,
    (buffer_invariant full_example []).2.2.1 full_example 7 hinv,
    (buffer_invariant full_example []).2.2.2 full_example (some 0) hinv,
    (buffer_invariant full_example
      [buffer_op.read (some 0), buffer_op.write 65, buffer_op.read none,
        buffer_op.write 66, buffer_op.read (some 0), buffer_op.init,
        buffer_op.write 67]).1⟩

/-- C11 (init and clear postcondition).  For every prior buffer state,
`init_uart_buffer` yields a present buffer with `count = 0`, `head = 0`,
`tail = 0`, `capacity = 256` and all 256 data cells zero, the same state
whatever the prior one was; afterwards `buffer_is_empty` is `true`,
`buffer_is_full` is `false` and `buffer_count` is `0`.  `clear_buffers` does
this to the TX and to the RX buffer.  There is no failure outcome. -/
theorem init_uart_buffer_post (b0 tx rx : uart_buffer_t) :
    (∃ b, init_uart_buffer (some b0) = some b ∧
      b.count = 0 ∧ b.head = 0 ∧ b.tail = 0 ∧ b.capacity = 256 ∧
      b.data.length = 256 ∧ (∀ i : Fin 256, b.data[i.val]? = some 0)) ∧
    (∀ b1, init_uart_buffer (some b1) = init_uart_buffer (some b0)) ∧
    buffer_is_empty (init_uart_buffer (some b0)) = true ∧
    buffer_is_full (init_uart_buffer (some b0)) = false ∧
    buffer_count (init_uart_buffer (some b0)) = 0 ∧
    clear_buffers (some tx) (some rx)
      = (init_uart_buffer (some tx), init_uart_buffer (some rx)) ∧
    (clear_buffers (some tx) (some rx)).1 = init_uart_buffer (some b0) ∧
    (clear_buffers (some tx) (some rx)).2 = init_uart_buffer (some b0) := by
  refine ⟨⟨_, rfl, rfl, rfl, rfl, rfl, List.length_replicate _ _, ?_⟩,
    fun _ => rfl, rfl, rfl, rfl, rfl, rfl, rfl⟩
  intro i
  show (List.replicate MAX_BUFFER_SIZE (0 : Byte))[i.val]? = some 0
  rw [List.getElem?_replicate]
  exact if_pos i.isLt

/-- C12 (queries on an absent buffer).  On the null pointer `buffer_is_empty`
returns `true`, `buffer_is_full` returns `true` and `buffer_count` returns `0`;
`buffer_write` and `buffer_read` on the null pointer return `false` and leave
the pointer null and the out-cell as it was.  On a present buffer the three
queries return a value computed from `count` and `capacity` only; they have no
pointee to return, as they store nothing through the pointer. -/
theorem queries_total (b : uart_buffer_t) (d : Byte) (out : Option Byte) :
    buffer_is_empty none = true ∧
    buffer_is_full none = true ∧
    buffer_count none = 0 ∧
    buffer_write none d = (false, none) ∧
    buffer_read none out = (false, none, out) ∧
    buffer_is_empty (some b) = decide (b.count = 0) ∧
    buffer_is_full (some b) = decide (b.count ≥ b.capacity) ∧
    buffer_count (some b) = b.count := by
  refine ⟨rfl, rfl, rfl, rfl, ?_, rfl, rfl, rfl⟩
  cases out <;> rfl

/-- C13 (the count decides empty and full).  For every present buffer state
with `count ≤ capacity`: `buffer_is_empty` is `true` exactly when `count = 0`,
`buffer_is_full` is `true` exactly when `count = capacity`, and `buffer_count`
is `count`; a state with the same count and capacity gives the same three
answers whatever its cursors and array.  After 256 writes from
`init_uart_buffer` the state has `head = tail` and is full and not empty;
right after `init_uart_buffer` the state has `head = tail` and is empty and not
full. -/
theorem count_decides (b : uart_buffer_t) (h : b.count ≤ b.capacity) :
    (buffer_is_empty (some b) = true ↔ b.count = 0) ∧
    (buffer_is_full (some b) = true ↔ b.count = b.capacity) ∧
    buffer_count (some b) = b.count ∧
    (∀ b2 : uart_buffer_t, b2.count = b.count → b2.capacity = b.capacity →
      buffer_is_empty (some b2) = buffer_is_empty (some b) ∧
      buffer_is_full (some b2) = buffer_is_full (some b) ∧
      buffer_count (some b2) = buffer_count (some b)) ∧
    (∀ (b0 : uart_buffer_t) (bs : List Byte), bs.length = 256 →
      ∃ bf, (write_all (init_uart_buffer (some b0)) bs).2 = some bf ∧
        bf.head = bf.tail ∧ buffer_is_full (some bf) = true ∧
        buffer_is_empty (some bf) = false) ∧
    (∀ b0 : uart_buffer_t,
      ∃ be, init_uart_buffer (some b0) = some be ∧
        be.head = be.tail ∧ buffer_is_empty (some be) = true ∧
        buffer_is_full (some be) = false) := by
  refine ⟨by simp [buffer_is_empty], ?_, rfl, ?_, ?_, fun _ => ⟨_, rfl, rfl, rfl, rfl⟩⟩
  · simp only [buffer_is_full, decide_eq_true_eq]
    omega
  · intro b2 hc hk
    simp [buffer_is_empty, buffer_is_full, buffer_count, hc, hk]
  · intro b0 bs hlen
    obtain ⟨bi, hinit, hwf, _, hcnt⟩ := init_uart_buffer_wf b0
    obtain ⟨bf, hw, hwf1, _, hcnt1⟩ :=
      write_all_wf bs bi hwf (by rw [hcnt, hlen]; decide)
    rw [hcnt, hlen] at hcnt1
    obtain ⟨⟨hcap, _, _, htail⟩, hrel⟩ := hwf1
    have hcap1 : bf.capacity = 256 := hcap
    rw [hcap1] at htail hrel
    refine ⟨bf, by rw [hinit, hw], by omega, ?_, ?_⟩
    · simp [buffer_is_full, hcap1, hcnt1]
    · simp [buffer_is_empty, hcnt1]

/-- Witness for C13: the full example buffer (count 256 of capacity 256, both
cursors at 3). -/
theorem count_decides_witness :
    full_example.count ≤ full_example.capacity ∧
    (buffer_is_empty (some full_example) = true ↔ full_example.count = 0) ∧
    (buffer_is_full (some full_example) = true ↔
      full_example.count = full_example.capacity) ∧
    buffer_count (some full_example) = 256 :=
  have hc := count_decides full_example (by decide)
  ⟨by decide, hc.1, hc.2.1, hc.2.2.1⟩

/-! ## Reads under the buffer invariant alone -/

theorem buffer_read_inv_step (b : uart_buffer_t) (v : Byte) (hinv : buffer_inv b)
    (h : b.count ≠ 0) :
    ∃ b1, buffer_read (some b) (some v) = (true, some b1, some (b.data.getD b.tail 0)) ∧
      buffer_inv b1 ∧ contents b = b.data.getD b.tail 0 :: contents b1 ∧
      b1.count + 1 = b.count := by
  obtain ⟨hcap, hcnt, hhead, htail⟩ := hinv
  have hcap1 : b.capacity = 256 := hcap
  obtain ⟨b1, hr, hdata, hh, ht, hc, hk⟩ := buffer_read_ok b v h
  rw [hcap1] at hcnt hhead htail ht hk
  simp only [SIZE_MODULUS] at ht
  have hinv1 : buffer_inv b1 := by
    refine ⟨hk, ?_, ?_, ?_⟩ <;> rw [hk] <;> omega
  refine ⟨b1, hr, hinv1, ?_, by omega⟩
  unfold contents
  obtain ⟨n, hn⟩ : ∃ n, b.count = n + 1 := ⟨b.count - 1, by omega⟩
  rw [hc, hn, List.range_succ_eq_map, List.map_cons, List.map_map, hdata, ht, hk, hcap1]
  congr 1
  · have h0 : (b.tail + 0) % 256 = b.tail := by omega
    rw [h0]
  · apply List.map_congr_left
    intro i _
    have hidx : ((b.tail + 1) % 18446744073709551616 % 256 + i) % 256
        = (b.tail + (i + 1)) % 256 := by omega
    simp [hidx]

theorem receive_loop_inv (n : Nat) :
    ∀ (b : uart_buffer_t) (v : Byte) (fuel : Nat), buffer_inv b → b.count = n →
      n < fuel →
      ∃ temp, receive_loop fuel (some b) (some v) = some ((contents b).map some, some temp) ∧
        temp.count = 0 := by
  induction n with
  | zero =>
    intro b v fuel _ hc hfuel
    obtain ⟨k, hk⟩ : ∃ k, fuel = k + 1 := ⟨fuel - 1, by omega⟩
    have hcont : contents b = [] := by
      apply List.eq_nil_of_length_eq_zero
      rw [contents_length, hc]
    refine ⟨b, ?_, hc⟩
    rw [hk, hcont]
    simp [receive_loop, buffer_read_empty b (some v) hc]
  | succ n ih =>
    intro b v fuel hinv hc hfuel
    obtain ⟨k, hk⟩ : ∃ k, fuel = k + 1 := ⟨fuel - 1, by omega⟩
    obtain ⟨b1, hr, hinv1, hcont, hc1⟩ := buffer_read_inv_step b v hinv (by omega)
    obtain ⟨temp, hloop, ht⟩ :=
      ih b1 (b.data.getD b.tail 0) k hinv1 (by omega) (by omega)
    refine ⟨temp, ?_, ht⟩
    rw [hk, hcont]
    simp only [receive_loop, hr, hloop]
    rfl

theorem receive_loop_short (n : Nat) :
    ∀ (b : uart_buffer_t) (v : Byte) (fuel : Nat), buffer_inv b → b.count = n →
      fuel ≤ n → receive_loop fuel (some b) (some v) = none := by
  induction n with
  | zero =>
    intro b v fuel _ _ hfuel
    have h0 : fuel = 0 := by omega
    rw [h0]
    rfl
  | succ n ih =>
    intro b v fuel hinv hc hfuel
    cases fuel with
    | zero => rfl
    | succ k =>
      obtain ⟨b1, hr, hinv1, _, hc1⟩ := buffer_read_inv_step b v hinv (by omega)
      have hnone := ih b1 (b.data.getD b.tail 0) k hinv1 (by omega) (by omega)
      simp only [receive_loop, hr, hnone]
      rfl

theorem read_many_inv (n : Nat) :
    ∀ (b : uart_buffer_t) (v : Byte), buffer_inv b → b.count = n →
      (read_many (some b) (some v) n).1 = (contents b).map (fun x => (true, some x)) := by
  induction n with
  | zero =>
    intro b v _ hc
    have hcont : contents b = [] := by
      apply List.eq_nil_of_length_eq_zero
      rw [contents_length, hc]
    rw [hcont]
    rfl
  | succ n ih =>
    intro b v hinv hc
    obtain ⟨b1, hr, hinv1, hcont, hc1⟩ := buffer_read_inv_step b v hinv (by omega)
    have hrest := ih b1 (b.data.getD b.tail 0) hinv1 (by omega)
    rw [hcont]
    simp only [read_many, hr, hrest]
    rfl

/-- C14 (non-destructive listing).  For every RX buffer state that satisfies
the buffer invariant, the display loop of `receive_data`, run on a copy of the
state, ends after exactly `count` successful reads (it needs `count + 1` loop
tests, and any larger bound gives the same result); it prints the bytes
`data[(tail + i) % capacity]` for `i < count` in that order, the bytes that
`count` successive `buffer_read` calls on the original deliver; the total it
reports is `buffer_count`; and the pointee of `rx_buffer` afterwards is the
initial state, unless the answer is `y` or `Y`, in which case it is the result
of `init_uart_buffer`.  With `count = 0` the function reports that there is no
data and leaves the state as it is. -/
theorem receive_data_peek (rx : uart_buffer_t) (v : Byte) (choice : Char) (fuel : Nat)
    (hinv : buffer_inv rx) (hfuel : rx.count < fuel) :
    (∃ temp, receive_loop fuel (some rx) (some v)
        = some ((contents rx).map some, some temp) ∧ temp.count = 0) ∧
    receive_loop rx.count (some rx) (some v) = none ∧
    contents rx
      = (List.range rx.count).map
          (fun i => rx.data.getD ((rx.tail + i) % rx.capacity) 0) ∧
    ((contents rx).map some).length = buffer_count (some rx) ∧
    (read_many (some rx) (some v) rx.count).1
      = (contents rx).map (fun x => (true, some x)) ∧
    (rx.count ≠ 0 → ¬ (choice = 'y' ∨ choice = 'Y') →
      receive_data fuel (some rx) v choice
        = some (receive_report.listing ((contents rx).map some) (buffer_count (some rx)),
            some rx)) ∧
    (rx.count ≠ 0 → (choice = 'y' ∨ choice = 'Y') →
      receive_data fuel (some rx) v choice
        = some (receive_report.listing ((contents rx).map some) (buffer_count (some rx)),
            init_uart_buffer (some rx))) ∧
    (rx.count = 0 →
      receive_data fuel (some rx) v choice = some (receive_report.no_data, some rx)) := by
  obtain ⟨temp, hloop, ht⟩ := receive_loop_inv rx.count rx v fuel hinv rfl hfuel
  have hlen : ((contents rx).map some).length = rx.count := by
    rw [List.length_map, contents_length]
  refine ⟨⟨temp, hloop, ht⟩, receive_loop_short rx.count rx v rx.count hinv rfl (Nat.le_refl _),
    rfl, hlen, read_many_inv rx.count rx v hinv rfl, ?_, ?_, ?_⟩
  · intro hne hch
    simp only [receive_data, buffer_is_empty, hloop, hlen, buffer_count]
    simp [hne, hch]
  · intro hne hch
    simp only [receive_data, buffer_is_empty, hloop, hlen, buffer_count]
    simp [hne, hch]
  · intro h0
    simp [receive_data, buffer_is_empty, h0]

/-- Witness for C14: three stored bytes that wrap past index 255, out-cell
initially 9, answer `n`, bound 4. -/
theorem receive_data_peek_witness :
    buffer_inv wrapped_example ∧ wrapped_example.count < 4 ∧
    contents wrapped_example = [254, 255, 0] ∧
    receive_data 4 (some wrapped_example) 9 'n'
      = some (receive_report.listing [some 254, some 255, some 0] 3,
          some wrapped_example) :=
  have hp := receive_data_peek wrapped_example 9 'n' 4 (by decide) (by decide)
  ⟨by decide, by decide, by decide, hp.2.2.2.2.2.1 (by decide) (by decide)⟩

/-- C15 (successful write: postcondition and frame).  For every buffer state
that satisfies the buffer invariant with `count < capacity` and every byte `d`,
`buffer_write` returns `true`, and in the new state the cell at the old head
holds `d`, every other cell is unchanged, `head` is `(old head + 1) % capacity`,
`count` is the old count plus one, and `tail` and `capacity` are unchanged. -/
theorem buffer_write_post (b : uart_buffer_t) (d : Byte) (hinv : buffer_inv b)
    (hlt : b.count < b.capacity) :
    ∃ b1, buffer_write (some b) d = (true, some b1) ∧
      b1.data[b.head]? = some d ∧
      (∀ i, i ≠ b.head → b1.data[i]? = b.data[i]?) ∧
      b1.head = (b.head + 1) % b.capacity ∧
      b1.count = b.count + 1 ∧
      b1.tail = b.tail ∧
      b1.capacity = b.capacity := by
  obtain ⟨hcap, hcnt, hhead, htail⟩ := hinv
  have hcap1 : b.capacity = 256 := hcap
  obtain ⟨b1, hw, hdata, hh, ht, hc, hk⟩ := buffer_write_ok b d hlt
  have hlen : b.data.length = 256 := b.data_len
  rw [hcap1] at hcnt hhead hlt
  simp only [SIZE_MODULUS] at hh hc
  refine ⟨b1, hw, ?_, ?_, ?_, by omega, ht, hk⟩
  · rw [hdata]
    exact List.getElem?_set_self (by omega)
  · intro i hi
    rw [hdata]
    exact List.getElem?_set_ne (fun hc => hi hc.symm)
  · rw [hh]
    congr 1
    omega

/-- Witness for C15: a write of 65 to the wrapped example buffer (head 1). -/
theorem buffer_write_post_witness :
    buffer_inv wrapped_example ∧ wrapped_example.count < wrapped_example.capacity ∧
    ∃ b1, buffer_write (some wrapped_example) 65 = (true, some b1) ∧
      b1.data[wrapped_example.head]? = some 65 ∧
      (∀ i, i ≠ wrapped_example.head → b1.data[i]? = wrapped_example.data[i]?) ∧
      b1.head = (wrapped_example.head + 1) % wrapped_example.capacity ∧
      b1.count = wrapped_example.count + 1 ∧
      b1.tail = wrapped_example.tail ∧
      b1.capacity = wrapped_example.capacity :=
  ⟨by decide, by decide, buffer_write_post wrapped_example 65 (by decide) (by decide)⟩

/-- C16 (successful read: postcondition and frame).  For every buffer state
that satisfies the buffer invariant with `count > 0`, `buffer_read` returns
`true` and delivers the byte in the cell at the old tail; in the new state
`tail` is `(old tail + 1) % capacity`, `count` is the old count minus one, and
`head`, `capacity` and the whole data array are unchanged. -/
theorem buffer_read_post (b : uart_buffer_t) (v : Byte) (hinv : buffer_inv b)
    (hpos : b.count > 0) :
    ∃ b1 x, buffer_read (some b) (some v) = (true, some b1, some x) ∧
      b.data[b.tail]? = some x ∧
      b1.tail = (b.tail + 1) % b.capacity ∧
      b1.count = b.count - 1 ∧
      b1.count + 1 = b.count ∧
      b1.head = b.head ∧
      b1.capacity = b.capacity ∧
      b1.data = b.data := by
  obtain ⟨hcap, hcnt, hhead, htail⟩ := hinv
  have hcap1 : b.capacity = 256 := hcap
  obtain ⟨b1, hr, hdata, hh, ht, hc, hk⟩ := buffer_read_ok b v (by omega)
  have hlen : b.data.length = 256 := b.data_len
  rw [hcap1] at hcnt htail
  simp only [SIZE_MODULUS] at ht
  have hin : b.tail < b.data.length := by omega
  refine ⟨b1, b.data.getD b.tail 0, hr, ?_, ?_, hc, by omega, hh, hk, hdata⟩
  · rw [List.getD_eq_getElem?_getD, List.getElem?_eq_getElem hin]
    rfl
  · rw [ht]
    congr 1
    omega

/-- Witness for C16: a read from the wrapped example buffer (tail 254). -/
theorem buffer_read_post_witness :
    buffer_inv wrapped_example ∧ wrapped_example.count > 0 ∧
    ∃ b1 x, buffer_read (some wrapped_example) (some 9) = (true, some b1, some x) ∧
      wrapped_example.data[wrapped_example.tail]? = some x ∧
      b1.tail = (wrapped_example.tail + 1) % wrapped_example.capacity ∧
      b1.count = wrapped_example.count - 1 ∧
      b1.count + 1 = wrapped_example.count ∧
      b1.head = wrapped_example.head ∧
      b1.capacity = wrapped_example.capacity ∧
      b1.data = wrapped_example.data :=
  ⟨by decide, by decide, buffer_read_post wrapped_example 9 (by decide) (by decide)⟩

/-! ## Reachable states and the bounded queue -/

theorem buffer_write_refines (b : uart_buffer_t) (d : Byte) (hwf : buffer_wf b) :
    ∃ b1, buffer_write (some b) d = ((fifo_write (contents b) d).1, some b1) ∧
      buffer_wf b1 ∧ contents b1 = (fifo_write (contents b) d).2 := by
  have hcap : b.capacity = 256 := hwf.1.1
  by_cases hlt : b.count < 256
  · obtain ⟨b1, hw, hwf1, hcont, _⟩ := buffer_write_wf b d hwf hlt
    refine ⟨b1, ?_, hwf1, ?_⟩
    · rw [hw]
      simp [fifo_write, contents_length, hlt]
    · rw [hcont]
      simp [fifo_write, contents_length, hlt]
  · refine ⟨b, ?_, hwf, ?_⟩
    · rw [buffer_write_full b d (by omega)]
      simp [fifo_write, contents_length, hlt]
    · simp [fifo_write, contents_length, hlt]

theorem buffer_read_refines (b : uart_buffer_t) (v : Byte) (hwf : buffer_wf b) :
    ∃ b1, buffer_read (some b) (some v)
        = ((fifo_read (contents b)).1.isSome, some b1,
            some ((fifo_read (contents b)).1.getD v)) ∧
      buffer_wf b1 ∧ contents b1 = (fifo_read (contents b)).2 := by
  by_cases h0 : b.count = 0
  · have hcont : contents b = [] := by
      apply List.eq_nil_of_length_eq_zero
      rw [contents_length, h0]
    refine ⟨b, ?_, hwf, ?_⟩
    · rw [buffer_read_empty b (some v) h0, hcont]
      rfl
    · rw [hcont]
      rfl
  · obtain ⟨b1, x, hr, hwf1, hcont, _⟩ := buffer_read_wf b v hwf h0
    refine ⟨b1, ?_, hwf1, ?_⟩
    · rw [hr, hcont]
      rfl
    · rw [hcont]
      rfl

theorem apply_op_wf (b : uart_buffer_t) (op : buffer_op) (hwf : buffer_wf b) :
    ∃ b1, apply_op (some b) op = some b1 ∧ buffer_wf b1 := by
  cases op with
  | write d =>
    obtain ⟨b1, hw, hwf1, _⟩ := buffer_write_refines b d hwf
    exact ⟨b1, by simp [apply_op, hw], hwf1⟩
  | read out =>
    cases out with
    | none => exact ⟨b, rfl, hwf⟩
    | some v =>
      obtain ⟨b1, hr, hwf1, _⟩ := buffer_read_refines b v hwf
      exact ⟨b1, by simp [apply_op, hr], hwf1⟩
  | init =>
    obtain ⟨b1, hi, hwf1, _⟩ := init_uart_buffer_wf b
    exact ⟨b1, hi, hwf1⟩

theorem run_ops_wf (ops : List buffer_op) :
    ∀ b : uart_buffer_t, buffer_wf b →
      ∃ b1, run_ops (some b) ops = some b1 ∧ buffer_wf b1 := by
  induction ops with
  | nil => intro b hwf; exact ⟨b, rfl, hwf⟩
  | cons op ops ih =>
    intro b hwf
    obtain ⟨b1, hop, hwf1⟩ := apply_op_wf b op hwf
    obtain ⟨b2, hrun, hwf2⟩ := ih b1 hwf1
    refine ⟨b2, ?_, hwf2⟩
    simp only [run_ops, List.foldl_cons, hop]
    exact hrun

theorem reachable_wf (b0 : uart_buffer_t) (ops : List buffer_op) :
    ∃ b, run_ops (init_uart_buffer (some b0)) ops = some b ∧ buffer_wf b := by
  obtain ⟨bi, hinit, hwf, _⟩ := init_uart_buffer_wf b0
  rw [hinit]
  exact run_ops_wf ops bi hwf

theorem run_trace_wf (ops : List buffer_op) :
    ∀ b : uart_buffer_t, buffer_wf b → buffer_op.init ∉ ops →
      ∃ b1, (run_trace (some b) ops).2.2 = some b1 ∧ buffer_wf b1 ∧
        contents b ++ (run_trace (some b) ops).1
          = (run_trace (some b) ops).2.1 ++ contents b1 := by
  induction ops with
  | nil =>
    intro b hwf _
    exact ⟨b, rfl, hwf, by simp [run_trace]⟩
  | cons op ops ih =>
    intro b hwf hno
    have hno1 : buffer_op.init ∉ ops := fun hc => hno (List.mem_cons_of_mem _ hc)
    cases op with
    | init => exact absurd (List.mem_cons_self _ _) hno
    | write d =>
      obtain ⟨b1, hw, hwf1, hcont⟩ := buffer_write_refines b d hwf
      obtain ⟨b2, hfin, hwf2, hrel⟩ := ih b1 hwf1 hno1
      refine ⟨b2, by simp only [run_trace, hw]; exact hfin, hwf2, ?_⟩
      simp only [run_trace, hw]
      by_cases hlt : (contents b).length < 256
      · simp only [fifo_write, hlt, if_true] at hcont ⊢
        rw [hcont] at hrel
        rw [← hrel]
        simp
      · simp only [fifo_write, hlt, if_false] at hcont ⊢
        rw [hcont] at hrel
        simpa using hrel
    | read out =>
      cases out with
      | none =>
        obtain ⟨b2, hfin, hwf2, hrel⟩ := ih b hwf hno1
        exact ⟨b2, hfin, hwf2, hrel⟩
      | some v =>
        obtain ⟨b1, hr, hwf1, hcont⟩ := buffer_read_refines b v hwf
        obtain ⟨b2, hfin, hwf2, hrel⟩ := ih b1 hwf1 hno1
        refine ⟨b2, by simp only [run_trace, hr]; exact hfin, hwf2, ?_⟩
        simp only [run_trace, hr]
        cases hc : contents b with
        | nil =>
          rw [hc] at hcont
          simp only [fifo_read] at hcont ⊢
          rw [hcont] at hrel
          simpa using hrel
        | cons x rest =>
          rw [hc] at hcont
          simp only [fifo_read] at hcont ⊢
          rw [hcont] at hrel
          simp [hrel]

/-- C17 (the circular buffer refines a bounded FIFO queue).  Let `b` be a state
reached from `init_uart_buffer` by any sequence of calls, with `contents b` the
cells `data[(tail + i) % capacity]` for `i < count`.  `buffer_write` succeeds
and appends the byte to the contents when the contents have fewer than 256
bytes, and otherwise fails and leaves them; `buffer_read` succeeds, delivers
the first byte of the contents and leaves the rest when the contents are not
empty, and otherwise fails and leaves them: the two calls act on the contents
as `fifo_write` and `fifo_read`.  For every sequence of writes and reads run
from `b`, the old contents followed by the accepted bytes are the delivered
bytes followed by the final contents; run from a fresh buffer, the accepted
bytes are the delivered bytes followed by the final contents. -/
theorem fifo_refinement (b0 : uart_buffer_t) (ops0 ops : List buffer_op) (d v : Byte)
    (hrw : buffer_op.init ∉ ops) :
    ∃ b, run_ops (init_uart_buffer (some b0)) ops0 = some b ∧
      (buffer_write (some b) d).1 = (fifo_write (contents b) d).1 ∧
      contents_ptr (buffer_write (some b) d).2 = (fifo_write (contents b) d).2 ∧
      ((contents b).length < 256 →
        (buffer_write (some b) d).1 = true ∧
        contents_ptr (buffer_write (some b) d).2 = contents b ++ [d]) ∧
      (¬ (contents b).length < 256 →
        (buffer_write (some b) d).1 = false ∧
        contents_ptr (buffer_write (some b) d).2 = contents b) ∧
      (if (buffer_read (some b) (some v)).1 then (buffer_read (some b) (some v)).2.2
        else none) = (fifo_read (contents b)).1 ∧
      contents_ptr (buffer_read (some b) (some v)).2.1 = (fifo_read (contents b)).2 ∧
      (∀ x rest, contents b = x :: rest →
        (buffer_read (some b) (some v)).1 = true ∧
        (buffer_read (some b) (some v)).2.2 = some x ∧
        contents_ptr (buffer_read (some b) (some v)).2.1 = rest) ∧
      (contents b = [] →
        (buffer_read (some b) (some v)).1 = false ∧
        (buffer_read (some b) (some v)).2.2 = some v ∧
        contents_ptr (buffer_read (some b) (some v)).2.1 = contents b) ∧
      contents b ++ (run_trace (some b) ops).1
        = (run_trace (some b) ops).2.1 ++ contents_ptr (run_trace (some b) ops).2.2 ∧
      (run_trace (init_uart_buffer (some b0)) ops).1
        = (run_trace (init_uart_buffer (some b0)) ops).2.1
            ++ contents_ptr (run_trace (init_uart_buffer (some b0)) ops).2.2 := by
  obtain ⟨b, hreach, hwf⟩ := reachable_wf b0 ops0
  obtain ⟨bw, hw, _, hcw⟩ := buffer_write_refines b d hwf
  obtain ⟨br, hr, _, hcr⟩ := buffer_read_refines b v hwf
  obtain ⟨bt, hfin, _, hrel⟩ := run_trace_wf ops b hwf hrw
  obtain ⟨bi, hinit, hwfi, hci, _⟩ := init_uart_buffer_wf b0
  obtain ⟨bj, hfinj, _, hrelj⟩ := run_trace_wf ops bi hwfi hrw
  rw [hci, List.nil_append] at hrelj
  refine ⟨b, hreach, by rw [hw], by rw [hw]; exact hcw, ?_, ?_, ?_, by rw [hr]; exact hcr,
    ?_, ?_, by rw [hfin]; exact hrel, by rw [hinit, hfinj]; exact hrelj⟩
  · intro hlt
    rw [hw]
    simp only [fifo_write, hlt, if_true] at hcw ⊢
    exact ⟨trivial, hcw⟩
  · intro hge
    rw [hw]
    simp only [fifo_write, hge, if_false] at hcw ⊢
    exact ⟨trivial, hcw⟩
  · rw [hr]
    cases hc : contents b <;> rfl
  · intro x rest hc
    rw [hr]
    rw [hc] at hcr
    rw [hc]
    exact ⟨rfl, rfl, hcr⟩
  · intro hc
    rw [hr]
    rw [hc] at hcr
    rw [hc]
    exact ⟨rfl, rfl, hcr⟩

/-- Witness for C17: an interleaving of writes and reads, failing calls among
them, run from a fresh buffer: the accepted bytes are the delivered bytes
followed by the final contents. -/
theorem fifo_refinement_witness :
    buffer_op.init ∉
      [buffer_op.write 3, buffer_op.read (some 0), buffer_op.read none,
        buffer_op.write 4, buffer_op.read (some 0), buffer_op.read (some 0),
        buffer_op.read (some 0), buffer_op.write 5] ∧
    (run_trace (init_uart_buffer (some full_example))
      [buffer_op.write 3, buffer_op.read (some 0), buffer_op.read none,
        buffer_op.write 4, buffer_op.read (some 0), buffer_op.read (some 0),
        buffer_op.read (some 0), buffer_op.write 5]).1
      = (run_trace (init_uart_buffer (some full_example))
          [buffer_op.write 3, buffer_op.read (some 0), buffer_op.read none,
            buffer_op.write 4, buffer_op.read (some 0), buffer_op.read (some 0),
            buffer_op.read (some 0), buffer_op.write 5]).2.1
        ++ contents_ptr (run_trace (init_uart_buffer (some full_example))
            [buffer_op.write 3, buffer_op.read (some 0), buffer_op.read none,
              buffer_op.write 4, buffer_op.read (some 0), buffer_op.read (some 0),
              buffer_op.read (some 0), buffer_op.write 5]).2.2 :=
  have hno : buffer_op.init ∉
      [buffer_op.write 3, buffer_op.read (some 0), buffer_op.read none,
        buffer_op.write 4, buffer_op.read (some 0), buffer_op.read (some 0),
        buffer_op.read (some 0), buffer_op.write 5] := by decide
  ⟨hno,
    (fifo_refinement full_example
      [buffer_op.write 1, buffer_op.read (some 0)]
      [buffer_op.write 3, buffer_op.read (some 0), buffer_op.read none,
        buffer_op.write 4, buffer_op.read (some 0), buffer_op.read (some 0),
        buffer_op.read (some 0), buffer_op.write 5] 7 0 hno).elim
      (fun _ hb => hb.2.2.2.2.2.2.2.2.2.2)⟩

/-- C18 (cursor and count consistency).  In every state reached from
`init_uart_buffer` by any sequence of `buffer_write` and `buffer_read` calls
(re-initialisations allowed as well), `head = (tail + count) % capacity`;
consequently `head = tail` holds exactly when `count = 0` or
`count = capacity`. -/
theorem cursor_consistency (b0 : uart_buffer_t) (ops : List buffer_op) :
    ∃ b, run_ops (init_uart_buffer (some b0)) ops = some b ∧
      b.head = (b.tail + b.count) % b.capacity ∧
      (b.head = b.tail ↔ (b.count = 0 ∨ b.count = b.capacity)) := by
  obtain ⟨b, hreach, ⟨hcap, hcnt, hhead, htail⟩, hrel⟩ := reachable_wf b0 ops
  have hcap1 : b.capacity = 256 := hcap
  refine ⟨b, hreach, hrel, ?_⟩
  rw [hcap1] at hcnt hhead htail hrel ⊢
  omega

/-- C19 (the wire bit sequence loses no information).  For every byte `b`, the
eight data symbols that `simulate_transmission` prints for it are
`d_i = (b >> i) & 1`, each is 0 or 1, and the sum of `d_i * 2 ^ i` is `b`;
hence two bytes with the same printed sequence are equal. -/
theorem wire_sequence_lossless (b : Byte) :
    (∀ i : Fin 8,
      (simulate_transmission b).1.getD (1 + i.val) 0 = (b.val >>> i.val) &&& 1 ∧
      ((simulate_transmission b).1.getD (1 + i.val) 0 = 0 ∨
        (simulate_transmission b).1.getD (1 + i.val) 0 = 1)) ∧
    data_symbols_value (simulate_transmission b).1 = b.val ∧
    (∀ b2 : Byte, (simulate_transmission b).1 = (simulate_transmission b2).1 → b = b2) := by
  have hseq : ∀ c : Byte, (simulate_transmission c).1 =
      [0, (c.val >>> 0) &&& 1, (c.val >>> 1) &&& 1, (c.val >>> 2) &&& 1,
        (c.val >>> 3) &&& 1, (c.val >>> 4) &&& 1, (c.val >>> 5) &&& 1,
        (c.val >>> 6) &&& 1, (c.val >>> 7) &&& 1, 1] := fun _ => rfl
  have hval : ∀ c : Byte, data_symbols_value (simulate_transmission c).1 = c.val := by
    intro c
    have hc : c.val < 256 := c.isLt
    rw [hseq c]
    simp only [data_symbols_value, UART_DATA_BITS, List.range_succ, List.range_zero,
      List.nil_append, List.cons_append, List.map_cons, List.map_nil, List.sum_cons,
      List.sum_nil, List.getD_cons_succ, List.getD_cons_zero, Nat.shiftRight_eq_div_pow,
      Nat.and_one_is_mod]
    omega
  refine ⟨?_, hval b, ?_⟩
  · intro i
    have hbit : (b.val >>> i.val) &&& 1 = 0 ∨ (b.val >>> i.val) &&& 1 = 1 := by
      rw [Nat.and_one_is_mod]
      omega
    have hsym : (simulate_transmission b).1.getD (1 + i.val) 0 = (b.val >>> i.val) &&& 1 := by
      rw [hseq b]
      fin_cases i <;> rfl
    rw [hsym]
    exact ⟨rfl, hbit⟩
  · intro b2 heq
    apply Fin.ext
    rw [← hval b, ← hval b2, heq]

/-- Witness for C19: the byte `0b10110001`, whose data symbols read back as
177. -/
theorem wire_sequence_lossless_witness :
    (simulate_transmission 0b10110001).1 = [0, 1, 0, 0, 0, 1, 1, 0, 1, 1] ∧
    data_symbols_value [0, 1, 0, 0, 0, 1, 1, 0, 1, 1] = 177 ∧
    (0b10110001 : Byte) = 177 :=
  ⟨rfl, (wire_sequence_lossless 0b10110001).2.1,
    (wire_sequence_lossless 0b10110001).2.2 177 rfl⟩

/-! ## The transmission batch -/

theorem transmit_loop_wf (bs : List Byte) :
    ∀ (tx rx : uart_buffer_t) (k m : Nat), buffer_wf tx → buffer_wf rx →
      k = min bs.length (256 - tx.count) → m = min k (256 - rx.count) →
      ∃ tx1 rx1,
        (transmit_loop (some tx) (some rx) bs).2.2.1 = some tx1 ∧
        (transmit_loop (some tx) (some rx) bs).2.2.2 = some rx1 ∧
        buffer_wf tx1 ∧ buffer_wf rx1 ∧
        contents tx1 = contents tx ++ bs.take k ∧
        contents rx1 = contents rx ++ bs.take m ∧
        (transmit_loop (some tx) (some rx) bs).1.map (fun e => e.byte) = bs.take k ∧
        (∀ e ∈ (transmit_loop (some tx) (some rx) bs).1,
          e.transmission = simulate_transmission e.byte ∧
          e.frame = encode_uart_frame e.byte ∧
          e.reception = reception_result.Ok e.byte) ∧
        (transmit_loop (some tx) (some rx) bs).1.map (fun e => e.rx_written)
          = List.replicate m true ++ List.replicate (k - m) false ∧
        (transmit_loop (some tx) (some rx) bs).2.1 = decide (k < bs.length) := by
  induction bs with
  | nil =>
    intro tx rx k m htx hrx hk hm
    have hk0 : k = 0 := by simpa using hk
    have hm0 : m = 0 := by rw [hk0] at hm; simpa using hm
    subst hk0
    subst hm0
    exact ⟨tx, rx, rfl, rfl, htx, hrx, by simp, by simp, rfl, by simp [transmit_loop],
      rfl, rfl⟩
  | cons byte rest ih =>
    intro tx rx k m htx hrx hk hm
    have hcapt : tx.capacity = 256 := htx.1.1
    have hcntt : tx.count ≤ tx.capacity := htx.1.2.1
    have hcapr : rx.capacity = 256 := hrx.1.1
    have hcntr : rx.count ≤ rx.capacity := hrx.1.2.1
    rw [List.length_cons] at hk
    by_cases hfull : tx.count < 256
    · obtain ⟨tx2, hw, htx2, hct2, hcnt2⟩ := buffer_write_wf tx byte htx hfull
      have hstep : ∃ rx2 ok, buffer_write (some rx) byte = (ok, some rx2) ∧ buffer_wf rx2 ∧
          ((ok = true ∧ rx.count < 256 ∧ contents rx2 = contents rx ++ [byte] ∧
              rx2.count = rx.count + 1) ∨
            (ok = false ∧ rx.count = 256 ∧ rx2 = rx)) := by
        by_cases hrfull : rx.count < 256
        · obtain ⟨rx2, hwr, hrx2, hcr2, hcntr2⟩ := buffer_write_wf rx byte hrx hrfull
          exact ⟨rx2, true, hwr, hrx2, Or.inl ⟨rfl, hrfull, hcr2, hcntr2⟩⟩
        · exact ⟨rx, false, buffer_write_full rx byte (by omega), hrx,
            Or.inr ⟨rfl, by omega, rfl⟩⟩
      obtain ⟨rx2, ok, hwr, hrx2, hcase⟩ := hstep
      obtain ⟨k1, hk1⟩ : ∃ k1, k = k1 + 1 := ⟨k - 1, by omega⟩
      have hk1eq : k1 = min rest.length (256 - tx2.count) := by omega
      have hloop : transmit_loop (some tx) (some rx) (byte :: rest) =
          ({ byte := byte, transmission := simulate_transmission byte,
             frame := encode_uart_frame byte,
             reception := simulate_reception (encode_uart_frame byte),
             rx_written := ok } :: (transmit_loop (some tx2) (some rx2) rest).1,
            (transmit_loop (some tx2) (some rx2) rest).2.1,
            (transmit_loop (some tx2) (some rx2) rest).2.2.1,
            (transmit_loop (some tx2) (some rx2) rest).2.2.2) := by
        simp [transmit_loop, hw, hwr]
      rcases hcase with ⟨hok, hrlt, hcr2, hcntr2⟩ | ⟨hok, hrfull, hrxeq⟩
      · obtain ⟨m1, hm1⟩ : ∃ m1, m = m1 + 1 := ⟨m - 1, by omega⟩
        obtain ⟨tx1, rx1, h1, h2, h3, h4, h5, h6, h7, h8, h9, h10⟩ :=
          ih tx2 rx2 k1 m1 htx2 hrx2 hk1eq (by omega)
        refine ⟨tx1, rx1, by rw [hloop]; exact h1, by rw [hloop]; exact h2, h3, h4,
          ?_, ?_, ?_, ?_, ?_, ?_⟩
        · rw [h5, hct2, hk1]; simp
        · rw [h6, hcr2, hm1]; simp
        · rw [hloop, hk1]; simp [h7]
        · rw [hloop]
          intro e he
          rcases List.mem_cons.mp he with heq | hmem
          · rw [heq]
            exact ⟨rfl, rfl, rfl⟩
          · exact h8 e hmem
        · rw [hloop, hk1, hm1, hok]
          simp only [List.map_cons, h9, List.replicate_succ, List.cons_append]
          congr 3
          omega
        · rw [hloop, h10, hk1]
          simp
      · have hm0 : m = 0 := by omega
        subst hrxeq
        obtain ⟨tx1, rx1, h1, h2, h3, h4, h5, h6, h7, h8, h9, h10⟩ :=
          ih tx2 rx2 k1 0 htx2 hrx2 hk1eq (by omega)
        refine ⟨tx1, rx1, by rw [hloop]; exact h1, by rw [hloop]; exact h2, h3, h4,
          ?_, ?_, ?_, ?_, ?_, ?_⟩
        · rw [h5, hct2, hk1]; simp
        · rw [h6, hm0]
          rfl
        · rw [hloop, hk1]; simp [h7]
        · rw [hloop]
          intro e he
          rcases List.mem_cons.mp he with heq | hmem
          · rw [heq]
            exact ⟨rfl, rfl, rfl⟩
          · exact h8 e hmem
        · rw [hloop, hk1, hm0, hok]
          simp only [List.map_cons, h9, List.replicate_zero, List.nil_append, Nat.sub_zero,
            List.replicate_succ]
        · rw [hloop, h10, hk1]
          simp
    · have hk0 : k = 0 := by omega
      have hm0 : m = 0 := by omega
      have hloop : transmit_loop (some tx) (some rx) (byte :: rest)
          = ([], true, some tx, some rx) := by
        simp [transmit_loop, buffer_write_full tx byte (by omega)]
      rw [hloop, hk0, hm0]
      exact ⟨tx, rx, rfl, rfl, htx, hrx, by simp, by simp, rfl, by simp, rfl, by simp⟩

/-- C20 as stated fails: the state `skewed_example` (empty, `head = 5`,
`tail = 0`) satisfies the buffer invariant, yet after the loop of
`transmit_data` on the single byte 65 the TX contents are `[0]`, the stale cell
at the tail, and not the old contents followed by the first
`min 1 (256 - 0) = 1` bytes of the input, `[65]`. -/
theorem transmit_loop_skewed_counterexample :
    buffer_inv skewed_example ∧ buffer_inv empty_example ∧
    contents_ptr (transmit_loop (some skewed_example) (some empty_example) [65]).2.2.1
      = [0] ∧
    contents skewed_example
        ++ List.take (min ([65] : List Byte).length (256 - skewed_example.count)) [65]
      = [65] ∧
    contents_ptr (transmit_loop (some skewed_example) (some empty_example) [65]).2.2.1
      ≠ contents skewed_example
          ++ List.take (min ([65] : List Byte).length (256 - skewed_example.count)) [65] := by
  decide

/-- C20, amended (orchestration of a transmission batch).  Let the TX and the
RX state satisfy the buffer invariant and have their write cursor at
`(tail + count) % capacity`, as every state reached from `init_uart_buffer`
has.  With `k = min (length bs) (256 - tx.count)` and
`m = min k (256 - rx.count)`, after the loop of `transmit_data` on the bytes
`bs` the TX contents are the old TX contents followed by the first `k` bytes of
`bs` and the RX contents are the old RX contents followed by the first `m`
bytes of `bs`; exactly the first `k` bytes are processed, the loop ends on a
full TX buffer exactly when `k < length bs`, and the RX write succeeds for the
first `m` processed bytes and fails for the other `k - m`.  Every frame handed
to `simulate_reception` is `encode_uart_frame` of the byte just written to TX,
and the report is success with that byte. -/
theorem transmit_loop_batch (tx rx : uart_buffer_t) (bs : List Byte)
    (htx : buffer_inv tx) (hrx : buffer_inv rx)
    (hctx : tx.head = (tx.tail + tx.count) % tx.capacity)
    (hcrx : rx.head = (rx.tail + rx.count) % rx.capacity) :
    ∃ tx1 rx1,
      (transmit_loop (some tx) (some rx) bs).2.2.1 = some tx1 ∧
      (transmit_loop (some tx) (some rx) bs).2.2.2 = some rx1 ∧
      buffer_inv tx1 ∧ buffer_inv rx1 ∧
      contents tx1 = contents tx ++ bs.take (min bs.length (256 - tx.count)) ∧
      contents rx1 = contents rx
        ++ bs.take (min (min bs.length (256 - tx.count)) (256 - rx.count)) ∧
      (transmit_loop (some tx) (some rx) bs).1.map (fun e => e.byte)
        = bs.take (min bs.length (256 - tx.count)) ∧
      (∀ e ∈ (transmit_loop (some tx) (some rx) bs).1,
        e.transmission = simulate_transmission e.byte ∧
        e.frame = encode_uart_frame e.byte ∧
        e.reception = reception_result.Ok e.byte ∧
        simulate_reception e.frame = reception_result.Ok e.byte) ∧
      (transmit_loop (some tx) (some rx) bs).1.map (fun e => e.rx_written)
        = List.replicate (min (min bs.length (256 - tx.count)) (256 - rx.count)) true
          ++ List.replicate
              (min bs.length (256 - tx.count)
                - min (min bs.length (256 - tx.count)) (256 - rx.count)) false ∧
      (transmit_loop (some tx) (some rx) bs).2.1
        = decide (min bs.length (256 - tx.count) < bs.length) := by
  obtain ⟨tx1, rx1, h1, h2, h3, h4, h5, h6, h7, h8, h9, h10⟩ :=
    transmit_loop_wf bs tx rx _ _ ⟨htx, hctx⟩ ⟨hrx, hcrx⟩ rfl rfl
  refine ⟨tx1, rx1, h1, h2, h3.1, h4.1, h5, h6, h7, ?_, h9, h10⟩
  intro e he
  obtain ⟨ht, hf, hr⟩ := h8 e he
  refine ⟨ht, hf, hr, ?_⟩
  rw [hf]
  rfl

/-- Witness for C20 (amended): TX holds three bytes that wrap past index 255,
RX is full, the input is `[65, 66]`; both bytes reach TX and none reaches RX. -/
theorem transmit_loop_batch_witness :
    buffer_inv wrapped_example ∧ buffer_inv full_example ∧
    wrapped_example.head
      = (wrapped_example.tail + wrapped_example.count) % wrapped_example.capacity ∧
    full_example.head = (full_example.tail + full_example.count) % full_example.capacity ∧
    ∃ tx1 rx1,
      (transmit_loop (some wrapped_example) (some full_example) [65, 66]).2.2.1 = some tx1 ∧
      (transmit_loop (some wrapped_example) (some full_example) [65, 66]).2.2.2 = some rx1 ∧
      contents tx1 = [254, 255, 0, 65, 66] ∧
      contents rx1 = contents full_example ∧
      (transmit_loop (some wrapped_example) (some full_example) [65, 66]).1.map
        (fun e => e.rx_written) = [false, false] :=
  ⟨by decide, by decide, by decide, by decide,
    (transmit_loop_batch wrapped_example full_example [65, 66]
      (by decide) (by decide) (by decide) (by decide)).elim
      (fun tx1 h1 => h1.elim (fun rx1 h =>
        ⟨tx1, rx1, h.1, h.2.1, h.2.2.2.2.1,
          h.2.2.2.2.2.1.trans (List.append_nil _), h.2.2.2.2.2.2.2.2.1⟩))⟩

end UartSim
